import Mathlib

/-!
# hive-op: the optimism RPC simulator and the parameter helper

A shallow embedding of

* `simulators/optimism/rpc/main.go`: the test catalog `tests`, the router inside
  `runAllTests`, the bootstrap sequence of `runAllTests`, the scheduler loop and the
  channel-backed `semaphore`;
* `optimism/helper.go`: `HiveUnpackParams.Params` and `HiveUnpackParams.Merge`.

Go strings are byte sequences, Go panics are values of `GoPanic`, a blocked channel
operation is `none`, and concurrent executions are step functions driven by an explicit
schedule (a list of actions), so that every interleaving is a list.
-/

/-! ## Go strings and run-time panics -/

/-- A Go `string`: an immutable sequence of bytes. -/
abbrev GoString := List UInt8

/-- The bytes of a Go string literal (Go source text is UTF-8). -/
def goStr (s : String) : GoString := s.toUTF8.data.toList

/-- The byte `0x2F`, written as the rune literal for a slash in the source. -/
def slash : UInt8 := 47

/-- What a goroutine can panic with in the code embedded here. -/
inductive GoPanic where
  /-- An explicit `panic(v)` with a string value. -/
  | value (msg : GoString)
  /-- The run-time error of a slice expression `s[:hi]` with `hi` outside `0..len(s)`. -/
  | sliceBounds (hi : Int) (len : Nat)
  /-- The run-time error "assignment to entry in nil map". -/
  | nilMapAssign
deriving DecidableEq, Repr

deriving instance DecidableEq for Except

/-- The loop of `strings.IndexByte`: scan from position `i`. -/
def indexByteFrom (c : UInt8) : GoString → Nat → Int
  | [], _ => -1
  | b :: rest, i => if b = c then (i : Int) else indexByteFrom c rest (i + 1)

/-- Go `strings.IndexByte(s, c)`: the index of the first `c` in `s`, or `-1`. -/
def IndexByte (s : GoString) (c : UInt8) : Int := indexByteFrom c s 0

/-- The Go slice expression `s[:hi]`; out of range bounds panic at run time. -/
def sliceTo (s : GoString) (hi : Int) : Except GoPanic GoString :=
  if 0 ≤ hi ∧ hi ≤ (s.length : Int) then .ok (s.take hi.toNat)
  else .error (.sliceBounds hi s.length)

/-! ## `simulators/optimism/rpc/main.go`: catalog and router -/

namespace Rpc

/-- The check functions the catalog refers to (their bodies are other files). -/
inductive TestFn where
  | balanceAndNonceAtTest | canonicalChainTest | CodeAtTest | deployContractTest
  | deployContractOutOfGasTest | estimateGasTest | genesisBlockByHashTest
  | genesisBlockByNumberTest | genesisHeaderByHashTest | genesisHeaderByNumberTest
  | receiptTest | syncProgressTest | transactionCountTest | transactionInBlockTest
  | TransactionReceiptTest | callContractTest | transactContractTest
  | newHeadSubscriptionTest | logSubscriptionTest | transactionInBlockSubscriptionTest
deriving DecidableEq, Repr

/-- Go `type testSpec struct { Name string; About string; Run func(*TestEnv) }`. -/
structure testSpec where
  Name : GoString
  About : GoString := []
  Run : TestFn
deriving DecidableEq, Repr

/-- Go `var tests = []testSpec{...}`, in source order. -/
def tests : List testSpec := [
  { Name := goStr "http/BalanceAndNonceAt", Run := .balanceAndNonceAtTest },
  { Name := goStr "http/CanonicalChain", Run := .canonicalChainTest },
  { Name := goStr "http/CodeAt", Run := .CodeAtTest },
  { Name := goStr "http/ContractDeployment", Run := .deployContractTest },
  { Name := goStr "http/ContractDeploymentOutOfGas", Run := .deployContractOutOfGasTest },
  { Name := goStr "http/EstimateGas", Run := .estimateGasTest },
  { Name := goStr "http/GenesisBlockByHash", Run := .genesisBlockByHashTest },
  { Name := goStr "http/GenesisBlockByNumber", Run := .genesisBlockByNumberTest },
  { Name := goStr "http/GenesisHeaderByHash", Run := .genesisHeaderByHashTest },
  { Name := goStr "http/GenesisHeaderByNumber", Run := .genesisHeaderByNumberTest },
  { Name := goStr "http/Receipt", Run := .receiptTest },
  { Name := goStr "http/SyncProgress", Run := .syncProgressTest },
  { Name := goStr "http/TransactionCount", Run := .transactionCountTest },
  { Name := goStr "http/TransactionInBlock", Run := .transactionInBlockTest },
  { Name := goStr "http/TransactionReceipt", Run := .TransactionReceiptTest },
  -- HTTP ABI tests.
  { Name := goStr "http/ABICall", Run := .callContractTest },
  { Name := goStr "http/ABITransact", Run := .transactContractTest },
  -- WebSocket ABI tests.
  { Name := goStr "ws/ABICall", Run := .callContractTest },
  { Name := goStr "ws/ABITransact", Run := .transactContractTest },
  -- WebSocket subscription tests.
  { Name := goStr "ws/NewHeadSubscription", Run := .newHeadSubscriptionTest },
  { Name := goStr "ws/LogSubscription", Run := .logSubscriptionTest },
  { Name := goStr "ws/TransactionInBlockSubscription",
    Run := .transactionInBlockSubscriptionTest },
  -- WebSocket RPC tests.
  { Name := goStr "ws/BalanceAndNonceAt", Run := .balanceAndNonceAtTest },
  { Name := goStr "ws/CanonicalChain", Run := .canonicalChainTest },
  { Name := goStr "ws/CodeAt", Run := .CodeAtTest },
  { Name := goStr "ws/ContractDeployment", Run := .deployContractTest },
  { Name := goStr "ws/ContractDeploymentOutOfGas", Run := .deployContractOutOfGasTest },
  { Name := goStr "ws/EstimateGas", Run := .estimateGasTest },
  { Name := goStr "ws/GenesisBlockByHash", Run := .genesisBlockByHashTest },
  { Name := goStr "ws/GenesisBlockByNumber", Run := .genesisBlockByNumberTest },
  { Name := goStr "ws/GenesisHeaderByHash", Run := .genesisHeaderByHashTest },
  { Name := goStr "ws/GenesisHeaderByNumber", Run := .genesisHeaderByNumberTest },
  { Name := goStr "ws/Receipt", Run := .receiptTest },
  { Name := goStr "ws/SyncProgress", Run := .syncProgressTest },
  { Name := goStr "ws/TransactionCount", Run := .transactionCountTest },
  { Name := goStr "ws/TransactionInBlock", Run := .transactionInBlockTest },
  { Name := goStr "ws/TransactionReceipt", Run := .TransactionReceiptTest }]

/-- Which transport runner the router invoked, and with which check. -/
inductive Routed where
  /-- The call `runHTTP(t, c, vault, genesis, run)`. -/
  | runHTTP (run : TestFn)
  /-- The call `runWS(t, c, vault, genesis, run)`. -/
  | runWS (run : TestFn)
deriving DecidableEq, Repr

/-- The body of the `Run` closure handed to `t.Run` in `runAllTests`:
`switch test.Name[:strings.IndexByte(test.Name, '/')]` with its three branches. -/
def router (test : testSpec) : Except GoPanic Routed :=
  match sliceTo test.Name (IndexByte test.Name slash) with
  | .error p => .error p
  | .ok tag =>
    if tag = goStr "http" then .ok (.runHTTP test.Run)
    else if tag = goStr "ws" then .ok (.runWS test.Run)
    else .error (.value (goStr "bad test prefix in name " ++ test.Name))

/-- Specification side: the text of a name before its first slash. -/
def beforeFirstSlash (name : GoString) : GoString := name.takeWhile (· ≠ slash)

/-- Specification side: the text of a name after its first slash. -/
def afterFirstSlash (name : GoString) : GoString := (name.dropWhile (· ≠ slash)).drop 1

/-! ## `simulators/optimism/rpc/main.go`: the semaphore -/

/-- Go `type semaphore chan struct{}`: a buffered channel of empty structs, given by its
capacity and the queue of buffered elements. The results below are for capacities `n ≥ 1`
(the source uses 40), where the channel is buffered. -/
structure semaphore where
  cap : Nat
  buf : List Unit
deriving DecidableEq, Repr

/-- Go `make(semaphore, n)`. -/
def semaphore.make (n : Nat) : semaphore := ⟨n, []⟩

/-- The send `s <- struct{}{}`: `none` when the buffer is full and the sender blocks. -/
def semaphore.send (s : semaphore) : Option semaphore :=
  if s.buf.length < s.cap then some { s with buf := s.buf ++ [()] } else none

/-- The receive `<-s`: `none` when the buffer is empty and the receiver blocks. -/
def semaphore.recv (s : semaphore) : Option semaphore :=
  match s.buf with
  | [] => none
  | _ :: rest => some { s with buf := rest }

/-- The loop `for i := 0; i < n; i++ { s <- struct{}{} }` with `k` iterations left. -/
def semaphore.fill : Nat → semaphore → Option semaphore
  | 0, s => some s
  | k + 1, s => s.send.bind (semaphore.fill k)

/-- Go `newSemaphore(n)`; `none` would mean a send of the fill loop blocks. -/
def newSemaphore (n : Nat) : Option semaphore := (semaphore.make n).fill n

/-- Go `func (s semaphore) get() { <-s }`. -/
def semaphore.get (s : semaphore) : Option semaphore := s.recv

/-- Go `func (s semaphore) put() { s <- struct{}{} }`. -/
def semaphore.put (s : semaphore) : Option semaphore := s.send

/-- The loop `for i := 0; i < cap(s); i++ { <-s }` with `k` iterations left, run without
any other goroutine touching the channel. -/
def semaphore.drainLoop : Nat → semaphore → Option semaphore
  | 0, s => some s
  | k + 1, s => s.recv.bind (semaphore.drainLoop k)

/-- Go `func (s semaphore) drain()`, run alone; `none` when a receive blocks for ever. -/
def semaphore.drain (s : semaphore) : Option semaphore := s.drainLoop s.cap

/-- The gate seen by its users: the channel, the number of admitted units (a ghost
counter: gets not yet matched by a put) and the loop counter `i` of `drain`. -/
structure Gate where
  sem : semaphore
  admitted : Nat
  drainI : Nat
deriving DecidableEq, Repr

/-- One atomic step on the gate. -/
inductive Op where
  /-- A `get()` that finds a token. -/
  | get
  /-- A `put()` by a unit that was admitted by an earlier `get()`. -/
  | put
  /-- One iteration of the loop of `drain()`: test `i < cap(s)`, receive, `i++`. -/
  | drainRecv
deriving DecidableEq, Repr

/-- The gate around a fresh semaphore. -/
def Gate.init (s : semaphore) : Gate := ⟨s, 0, 0⟩

/-- The effect of one step; `none` when the step is not enabled (it blocks, or it is a
put without a matching get, or the drain loop is over). -/
def Gate.step (g : Gate) : Op → Option Gate
  | .get => g.sem.get.map fun s => { g with sem := s, admitted := g.admitted + 1 }
  | .put =>
    if 0 < g.admitted then
      g.sem.put.map fun s => { g with sem := s, admitted := g.admitted - 1 }
    else none
  | .drainRecv =>
    if g.drainI < g.sem.cap then
      g.sem.recv.map fun s => { g with sem := s, drainI := g.drainI + 1 }
    else none

/-- Run a schedule of steps from a gate state. -/
def Gate.exec (g : Gate) : List Op → Option Gate
  | [] => some g
  | op :: ops => (g.step op).bind fun g1 => g1.exec ops

/-- The loop condition of `drain()` is false: all `cap(s)` receives are done and
`drain()` returns. -/
def Gate.drainReturned (g : Gate) : Prop := ¬ g.drainI < g.sem.cap

instance (g : Gate) : Decidable g.drainReturned := by
  unfold Gate.drainReturned; infer_instance

/-- The conservation law of the gate: every token is in the channel, held by an admitted
unit, or already taken by `drain()`. -/
def Gate.Conserved (N : Nat) (g : Gate) : Prop :=
  g.sem.cap = N ∧ g.sem.buf.length + g.admitted + g.drainI = N

end Rpc

/-! ## `optimism/helper.go`: `HiveUnpackParams` -/

namespace Optimism

/-- The entry of `k` in a list of map entries. -/
def lookupEntries (k : GoString) : List (GoString × GoString) → Option GoString
  | [] => none
  | (k1, v1) :: rest => if k1 = k then some v1 else lookupEntries k rest

/-- The entries after the assignment `m[k] = v`: an existing entry of `k` is
overwritten, otherwise the map gains an entry. -/
def setEntries (k v : GoString) : List (GoString × GoString) → List (GoString × GoString)
  | [] => [(k, v)]
  | (k1, v1) :: rest =>
    if k1 = k then (k, v) :: rest else (k1, v1) :: setEntries k v rest

/-- An allocated Go `map[string]string`: finitely many entries with distinct keys. The
order of the list is the order in which a `range` loop visits the entries; Go leaves it
unspecified, and every order is the list of some value of this type. -/
structure GoMap where
  entries : List (GoString × GoString)
  nodup : (entries.map Prod.fst).Nodup

/-- Go `make(map[string]string)`. -/
def GoMap.empty : GoMap := ⟨[], List.nodup_nil⟩

/-- The assignment `m[k] = v` on an allocated map. -/
def GoMap.set (m : GoMap) (k v : GoString) : GoMap :=
  ⟨setEntries k v m.entries, by
    have hkeys : ∀ l : List (GoString × GoString), (setEntries k v l).map Prod.fst
        = if k ∈ l.map Prod.fst then l.map Prod.fst else l.map Prod.fst ++ [k] := by
      intro l
      induction l with
      | nil => simp [setEntries]
      | cons e rest ih =>
        obtain ⟨k1, v1⟩ := e
        by_cases h : k1 = k
        · simp [setEntries, h]
        · have h1 : ¬ k = k1 := fun e => h e.symm
          simp only [setEntries, h, if_false, List.map_cons, ih, List.mem_cons, h1, false_or]
          split <;> simp
    rw [hkeys]
    split
    · exact m.nodup
    · rename_i hk
      exact List.Nodup.append m.nodup (List.nodup_singleton k) (by simpa using hk)⟩

/-- Go `hivesim.Params`, a `map[string]string`; `none` is the nil map. -/
abbrev Params := Option GoMap

/-- Go `type HiveUnpackParams hivesim.Params`. -/
abbrev HiveUnpackParams := Option GoMap

/-- What `range m` visits: nothing for the nil map. -/
def rangeOf : Option GoMap → List (GoString × GoString)
  | none => []
  | some m => m.entries

/-- The read `v, ok := m[k]`; a nil map has no entries. -/
def get? (m : Option GoMap) (k : GoString) : Option GoString := lookupEntries k (rangeOf m)

/-- The key set of a map, in iteration order. -/
def keys (m : Option GoMap) : List GoString := (rangeOf m).map Prod.fst

/-- Go `len(m)`. -/
def len (m : Option GoMap) : Nat := (rangeOf m).length

/-- The assignment `m[k] = v`; on the nil map it panics. -/
def assign (m : Option GoMap) (k v : GoString) : Except GoPanic (Option GoMap) :=
  match m with
  | none => .error .nilMapAssign
  | some a => .ok (some (a.set k v))

/-- The literal `"HIVE_UNPACK_"`. -/
def hiveUnpack : GoString := goStr "HIVE_UNPACK_"

/-- The loop `for k, v := range u { out["HIVE_UNPACK_"+k] = v }` over the entries still
to visit, on the state made of the two maps `u` and `out`. -/
def HiveUnpackParams.paramsLoop :
    List (GoString × GoString) → HiveUnpackParams × GoMap → HiveUnpackParams × GoMap
  | [], st => st
  | (k, v) :: rest, (u, out) => paramsLoop rest (u, out.set (hiveUnpack ++ k) v)

/-- Go `func (u HiveUnpackParams) Params() hivesim.Params`: the pair of `u` as the call
leaves it and the returned map. -/
def HiveUnpackParams.Params (u : HiveUnpackParams) : HiveUnpackParams × Params :=
  let st := HiveUnpackParams.paramsLoop (rangeOf u) (u, GoMap.empty)
  (st.1, some st.2)

/-- The loop `for k, v := range other { u[k] = v }` over the entries still to visit, on
the state made of the two maps `u` and `other`. -/
def HiveUnpackParams.mergeLoop : List (GoString × GoString) →
    HiveUnpackParams × HiveUnpackParams → Except GoPanic (HiveUnpackParams × HiveUnpackParams)
  | [], st => .ok st
  | (k, v) :: rest, (u, other) =>
    match assign u k v with
    | .error p => .error p
    | .ok u1 => mergeLoop rest (u1, other)

/-- Go `func (u HiveUnpackParams) Merge(other HiveUnpackParams)`: the two maps as the
call leaves them, or the panic of an assignment to a nil `u`. When `other` is the very
map `u`, every assignment rewrites an entry with its own value, which is the outcome
this function gives on two equal maps. -/
def HiveUnpackParams.Merge (u other : HiveUnpackParams) :
    Except GoPanic (HiveUnpackParams × HiveUnpackParams) :=
  HiveUnpackParams.mergeLoop (rangeOf other) (u, other)

/-- Specification side: what unpacking does to a key, dropping a leading
`HIVE_UNPACK_` when there is one. -/
def unpackKey (k : GoString) : GoString :=
  if hiveUnpack.isPrefixOf k then k.drop hiveUnpack.length else k

/-- The entry written by `Params` for the entry `e` of `u`. -/
def packEntry (e : GoString × GoString) : GoString × GoString := (hiveUnpack ++ e.1, e.2)

/-- The entries of `u` after the assignments of `Merge` for the entries `l` of `other`. -/
def mergeEntries : List (GoString × GoString) → List (GoString × GoString) →
    List (GoString × GoString)
  | [], es => es
  | (k, v) :: rest, es => mergeEntries rest (setEntries k v es)

end Optimism

/-! ## `simulators/optimism/rpc/main.go`: the scheduler loop of `runAllTests` -/

namespace Rpc

/-- Go `fmt.Sprintf("%s (%s)", a, b)`. -/
def sprintfParen (a b : GoString) : GoString := a ++ goStr " (" ++ b ++ goStr ")"

/-- The `hivesim.TestSpec` value handed to `t.Run`; its `Run` closure is given by what it
does when called, which is the router on the captured entry. -/
structure hivesimTestSpec where
  Name : GoString
  Description : GoString
  Run : Except GoPanic Routed
deriving DecidableEq, Repr

/-- The argument of `t.Run` built by the goroutine that captured the entry `test`. -/
def reportOf (test : testSpec) : hivesimTestSpec :=
  { Name := sprintfParen test.Name (goStr "ops-l2"),
    Description := test.About,
    Run := router test }

/-- Where the goroutine of `runAllTests` stands in the scheduler part. -/
inductive MainPc where
  /-- At the head of `for _, test := range tests`, with the entries still to visit. -/
  | loop (rest : List testSpec)
  /-- After `test := test; s.get()` for the entry `test`, before the `go` statement. -/
  | acquired (test : testSpec) (rest : List testSpec)
  /-- Inside `s.drain()` with loop counter `i`. -/
  | drain (i : Nat)
  /-- After `s.drain()`: `runAllTests` returns. -/
  | returned
deriving DecidableEq, Repr

/-- The state of the scheduler: the semaphore, the main goroutine, the launched goroutines
(each with its own copy of the entry, made by `test := test`) split into those that have
not called `t.Run` yet and those that have and still hold their slot, and the history. -/
structure Sched where
  sem : semaphore
  main : MainPc
  /-- Goroutines launched whose `t.Run` call has not happened yet. -/
  spawned : List testSpec
  /-- Goroutines past `t.Run` (sleeping), whose deferred `s.put()` is still to run. -/
  sleeping : List testSpec
  /-- History: number of `s.get()` calls of the loop that returned. -/
  gets : Nat
  /-- History: the entries of the `go` statements executed, in order. -/
  launched : List testSpec
  /-- History: the arguments of the `t.Run` calls, in the order they happened. -/
  reports : List hivesimTestSpec
  /-- History: the entries of the goroutines whose deferred `s.put()` has run. -/
  puts : List testSpec
  /-- History: number of receives done by `s.drain()`. -/
  drained : Nat
deriving DecidableEq, Repr

/-- The state at `for _, test := range tests` right after `s := newSemaphore(n)`. -/
def Sched.init (s : semaphore) (catalog : List testSpec) : Sched :=
  { sem := s, main := .loop catalog, spawned := [], sleeping := [], gets := 0,
    launched := [], reports := [], puts := [], drained := 0 }

/-- One atomic step of one goroutine. -/
inductive Act where
  /-- The next step of the goroutine of `runAllTests`. -/
  | main
  /-- The goroutine at position `i` among the spawned ones calls `t.Run`, which returns. -/
  | workerRun (i : Nat)
  /-- The goroutine at position `i` among the sleeping ones ends: its deferred
  `s.put()` runs. -/
  | workerPut (i : Nat)
deriving DecidableEq, Repr

/-- The effect of a step; `none` when the step is not enabled (a blocked channel operation,
no such goroutine, or `runAllTests` has returned). -/
def Sched.step (st : Sched) : Act → Option Sched
  | .main =>
    match st.main with
    | .loop [] => some { st with main := .drain 0 }
    | .loop (test :: rest) =>
      st.sem.get.map fun s =>
        { st with sem := s, main := .acquired test rest, gets := st.gets + 1 }
    | .acquired test rest =>
      some { st with main := .loop rest, spawned := st.spawned ++ [test],
                     launched := st.launched ++ [test] }
    | .drain i =>
      if i < st.sem.cap then
        st.sem.recv.map fun s =>
          { st with sem := s, main := .drain (i + 1), drained := st.drained + 1 }
      else some { st with main := .returned }
    | .returned => none
  | .workerRun i =>
    match st.spawned[i]? with
    | none => none
    | some test =>
      some { st with spawned := st.spawned.eraseIdx i, sleeping := st.sleeping ++ [test],
                     reports := st.reports ++ [reportOf test] }
  | .workerPut i =>
    match st.sleeping[i]? with
    | none => none
    | some test =>
      st.sem.put.map fun s =>
        { st with sem := s, sleeping := st.sleeping.eraseIdx i, puts := st.puts ++ [test] }

/-- Run a schedule (an interleaving of the goroutines) from a state. -/
def Sched.exec (st : Sched) : List Act → Option Sched
  | [] => some st
  | a :: acts => (st.step a).bind fun st1 => st1.exec acts

/-! ## `simulators/optimism/rpc/main.go`: the bootstrap part of `runAllTests` -/

/-- Go `time.Second`, a `time.Duration` in nanoseconds. -/
def timeSecond : Nat := 1000000000

/-- The calls `runAllTests` makes before the scheduler loop, with their arguments. Their
bodies are in other files: each either returns or ends the test (`t.Fatal`, a panic). -/
inductive Call where
  | NewDevnet
  | InitContracts
  | InitHardhatDeployConfig
  | InitL1Hardhat
  | AddEth1
  | WaitUpEth1 (i : Nat) (timeout : Nat)
  | DeployL1Hardhat
  | InitL2Hardhat
  | AddOpL2
  | WaitUpOpL2Engine (i : Nat) (timeout : Nat)
  | InitRollupHardhat
  | AddOpNode (eth1 : Nat) (l2 : Nat)
  | AddOpBatcher (eth1 : Nat) (l2 : Nat) (node : Nat)
  | GetOpL2Engine (i : Nat)
  | newVault
  /-- The pair `genesis, err := json.Marshal(d.L1Cfg); handleErr(err)`: it ends the
  test through `t.Fatal` when `err != nil`. -/
  | jsonMarshal
deriving DecidableEq, Repr

/-- The outcome of `runAllTests` up to the scheduler loop: the calls made, in order, and
the scheduler state the loop starts from when the function got that far. -/
structure Boot where
  trace : List Call
  sched : Option Sched
deriving DecidableEq, Repr

/-- Make the call `c`, then go on with `k` when it returns (`ok c`); when it ends the
test nothing after it runs. -/
def call (ok : Call → Bool) (c : Call) (k : Boot) : Boot :=
  if ok c then ⟨c :: k.trace, k.sched⟩ else ⟨[c], none⟩

/-- The statement `s := newSemaphore(40)` and the entry into the loop over `tests`. -/
def schedulerStart : Boot := ⟨[], (newSemaphore 40).map fun s => Sched.init s tests⟩

/-- Go `runAllTests`, up to the entry into the scheduler loop; `ok` tells which of the
calls return. -/
def runAllTests (ok : Call → Bool) : Boot :=
  call ok .NewDevnet <|
  call ok .InitContracts <|
  call ok .InitHardhatDeployConfig <|
  call ok .InitL1Hardhat <|
  call ok .AddEth1 <|
  call ok (.WaitUpEth1 0 (timeSecond * 10)) <|
  call ok .DeployL1Hardhat <|
  call ok .InitL2Hardhat <|
  call ok .AddOpL2 <|
  call ok (.WaitUpOpL2Engine 0 (timeSecond * 10)) <|
  call ok .InitRollupHardhat <|
  call ok (.AddOpNode 0 0) <|
  call ok (.AddOpBatcher 0 0 0) <|
  call ok (.GetOpL2Engine 0) <|
  call ok .newVault <|
  call ok .jsonMarshal <|
  schedulerStart

/-- Specification side: the documented order of the bootstrap stages. -/
def stageOrder : List Call :=
  [.InitContracts, .InitHardhatDeployConfig, .InitL1Hardhat, .AddEth1,
   .WaitUpEth1 0 (10 * timeSecond), .DeployL1Hardhat, .InitL2Hardhat, .AddOpL2,
   .WaitUpOpL2Engine 0 (10 * timeSecond), .InitRollupHardhat, .AddOpNode 0 0,
   .AddOpBatcher 0 0 0]

/-- The stages among the calls made, in the order they were made. -/
def Boot.stages (b : Boot) : List Call := b.trace.filter fun c => decide (c ∈ stageOrder)

/-- A list of calls made one after the other, then `k`. -/
def runCalls (ok : Call → Bool) : List Call → Boot → Boot
  | [], k => k
  | c :: cs, k => call ok c (runCalls ok cs k)

/-- The calls of `runAllTests` before the scheduler loop, in source order. -/
def callSeq : List Call :=
  .NewDevnet :: stageOrder ++ [.GetOpL2Engine 0, .newVault, .jsonMarshal]

/-- The entries the loop of the scheduler has still to launch. -/
def MainPc.pending : MainPc → List testSpec
  | .loop rest => rest
  | .acquired test rest => test :: rest
  | .drain _ => []
  | .returned => []

/-- The number of slots held by the main goroutine for a goroutine it has yet to launch. -/
def MainPc.holding : MainPc → Nat
  | .acquired _ _ => 1
  | _ => 0

/-- What the program counter of the main goroutine says about the receives of `drain()`
done so far, on a gate of capacity `N`. -/
def MainPc.drainedOk (N : Nat) (drained : Nat) : MainPc → Prop
  | .loop _ => drained = 0
  | .acquired _ _ => drained = 0
  | .drain i => drained = i
  | .returned => drained = N

/-- The invariant of the scheduler on a gate of capacity `N` and a catalog. -/
structure Sched.Inv (N : Nat) (catalog : List testSpec) (st : Sched) : Prop where
  cap_eq : st.sem.cap = N
  tokens : st.sem.buf.length + st.spawned.length + st.sleeping.length
    + st.main.holding + st.drained = N
  progress : st.launched ++ st.main.pending = catalog
  gets_eq : st.gets = st.launched.length + st.main.holding
  reports_perm : (st.reports ++ st.spawned.map reportOf).Perm (st.launched.map reportOf)
  puts_perm : (st.puts ++ (st.sleeping ++ st.spawned)).Perm st.launched
  drained_ok : st.main.drainedOk N st.drained

/-- A catalog of two entries, for examples. -/
def twoTests : List testSpec :=
  [{ Name := goStr "http/CodeAt", Run := .CodeAtTest },
   { Name := goStr "ws/LogSubscription", Run := .logSubscriptionTest }]

/-- An interleaving on `twoTests` with a gate of capacity 2 in which the second goroutine
calls `t.Run` and ends before the first one. -/
def twoTestsSchedule : List Act :=
  [.main, .main, .main, .main, .workerRun 1, .main, .workerPut 0, .main, .workerRun 0,
   .workerPut 0, .main, .main]

/-- The state `twoTestsSchedule` ends in. -/
def twoTestsFinal : Sched :=
  { sem := ⟨2, []⟩, main := .returned, spawned := [], sleeping := [], gets := 2,
    launched := twoTests,
    reports := [reportOf { Name := goStr "ws/LogSubscription", Run := .logSubscriptionTest },
                reportOf { Name := goStr "http/CodeAt", Run := .CodeAtTest }],
    puts := [{ Name := goStr "ws/LogSubscription", Run := .logSubscriptionTest },
             { Name := goStr "http/CodeAt", Run := .CodeAtTest }],
    drained := 2 }

/-- The schedule of the loop in which every goroutine ends before the next `s.get()`. -/
def seqLoopSchedule : List testSpec → List Act
  | [] => []
  | _ :: rest => .main :: .main :: .workerRun 0 :: .workerPut 0 :: seqLoopSchedule rest

/-- A schedule of the whole scheduler part on a gate of capacity `N`: the sequential loop,
the entry into `drain()`, its `N` receives and the return. -/
def seqSchedule (N : Nat) (catalog : List testSpec) : List Act :=
  seqLoopSchedule catalog ++ (.main :: (List.replicate N .main ++ [.main]))

end Rpc

/-! ## Theorems -/

namespace Rpc

/-! ### Router -/

theorem indexByteFrom_of_mem (c : UInt8) (s : GoString) (i : Nat) (h : c ∈ s) :
    indexByteFrom c s i = ((i + (s.takeWhile (· ≠ c)).length : Nat) : Int) := by
  induction s generalizing i with
  | nil => simp at h
  | cons b rest ih =>
    by_cases hb : b = c
    · simp [indexByteFrom, hb]
    · have hmem : c ∈ rest := by
        rcases List.mem_cons.1 h with h1 | h1
        · exact absurd h1.symm hb
        · exact h1
      simp only [indexByteFrom, hb, if_false, ih (i + 1) hmem]
      simp [List.takeWhile_cons, hb]
      omega

theorem take_length_takeWhile (p : UInt8 → Bool) (s : GoString) :
    s.take (s.takeWhile p).length = s.takeWhile p := by
  induction s with
  | nil => rfl
  | cons b rest ih =>
    by_cases hb : p b = true
    · simp [List.takeWhile_cons, hb, ih]
    · simp [List.takeWhile_cons, hb]

/-- With a slash in the name, the slice of the router is the text before the first one. -/
theorem sliceTo_indexByte_of_mem (s : GoString) (h : slash ∈ s) :
    sliceTo s (IndexByte s slash) = .ok (beforeFirstSlash s) := by
  have hle : (s.takeWhile (· ≠ slash)).length ≤ s.length :=
    (List.takeWhile_sublist _).length_le
  unfold sliceTo IndexByte
  rw [indexByteFrom_of_mem slash s 0 h]
  simp only [Nat.zero_add, Int.toNat_ofNat, take_length_takeWhile]
  rw [if_pos ⟨Int.ofNat_nonneg _, Int.ofNat_le.2 hle⟩]
  rfl

theorem router_of_mem (t : testSpec) (h : slash ∈ t.Name) :
    router t =
      if beforeFirstSlash t.Name = goStr "http" then .ok (.runHTTP t.Run)
      else if beforeFirstSlash t.Name = goStr "ws" then .ok (.runWS t.Run)
      else .error (.value (goStr "bad test prefix in name " ++ t.Name)) := by
  unfold router
  rw [sliceTo_indexByte_of_mem t.Name h]

theorem http_ne_ws : goStr "http" ≠ goStr "ws" := by decide

/-- C3: every entry of the catalog `tests` has a name with a slash, a non-empty text
before the first slash that is `http` or `ws`, and a non-empty text after it; so the
router invokes `runHTTP` or `runWS` with the entry's check and never panics. -/
theorem catalog_names_well_formed :
    ∀ t ∈ tests,
      slash ∈ t.Name ∧ beforeFirstSlash t.Name ≠ [] ∧
      (beforeFirstSlash t.Name = goStr "http" ∨ beforeFirstSlash t.Name = goStr "ws") ∧
      afterFirstSlash t.Name ≠ [] ∧
      (router t = .ok (.runHTTP t.Run) ∨ router t = .ok (.runWS t.Run)) ∧
      router t ≠ .error (.value (goStr "bad test prefix in name " ++ t.Name)) := by
  decide

theorem catalog_names_well_formed_witness :
    (⟨goStr "ws/LogSubscription", [], .logSubscriptionTest⟩ : testSpec) ∈ tests ∧
    beforeFirstSlash (goStr "ws/LogSubscription") = goStr "ws" ∧
    afterFirstSlash (goStr "ws/LogSubscription") ≠ [] ∧
    router ⟨goStr "ws/LogSubscription", [], .logSubscriptionTest⟩
      = .ok (.runWS .logSubscriptionTest) := by
  have h := catalog_names_well_formed
    ⟨goStr "ws/LogSubscription", [], .logSubscriptionTest⟩ (by decide)
  refine ⟨by decide, by decide, h.2.2.2.1, by decide⟩

/-- C4: for a name with a slash the router looks only at the text before the first slash:
it calls `runHTTP` (with the entry's own check) exactly when that text is `http`, `runWS`
exactly when it is `ws`, and otherwise calls neither and panics with
`bad test prefix in name ` followed by the full name. The router is a function of the one
entry, so other catalog entries cannot change the decision. -/
theorem router_decides_on_first_tag (t : testSpec) (h : slash ∈ t.Name) :
    (∀ run, router t = .ok (.runHTTP run) ↔
      (beforeFirstSlash t.Name = goStr "http" ∧ run = t.Run)) ∧
    (∀ run, router t = .ok (.runWS run) ↔
      (beforeFirstSlash t.Name = goStr "ws" ∧ run = t.Run)) ∧
    ((beforeFirstSlash t.Name ≠ goStr "http" ∧ beforeFirstSlash t.Name ≠ goStr "ws") ↔
      router t = .error (.value (goStr "bad test prefix in name " ++ t.Name))) ∧
    ((beforeFirstSlash t.Name ≠ goStr "http" ∧ beforeFirstSlash t.Name ≠ goStr "ws") →
      ∀ r, router t ≠ .ok r) := by
  rw [router_of_mem t h]
  by_cases h1 : beforeFirstSlash t.Name = goStr "http"
  · have h2 : beforeFirstSlash t.Name ≠ goStr "ws" := fun e => http_ne_ws (h1.symm.trans e)
    simp [h1, http_ne_ws, eq_comm]
  · by_cases h2 : beforeFirstSlash t.Name = goStr "ws"
    · simp [h2, http_ne_ws.symm, eq_comm]
    · simp [h1, h2]

theorem router_decides_on_first_tag_witness :
    slash ∈ goStr "grpc/Foo" ∧
    router ⟨goStr "grpc/Foo", [], .CodeAtTest⟩
      = .error (.value (goStr "bad test prefix in name grpc/Foo")) := by
  have h := router_decides_on_first_tag ⟨goStr "grpc/Foo", [], .CodeAtTest⟩ (by decide)
  exact ⟨by decide, h.2.2.1.1 (by decide)⟩

/-- The empty name, and the two panic values side by side: the run-time error of the
slice for `httpFoo`, the router's own message for `grpcFoo/`. -/
theorem router_fault_values :
    router ⟨goStr "", [], .CodeAtTest⟩ = .error (.sliceBounds (-1) 0) ∧
    router ⟨goStr "httpFoo", [], .CodeAtTest⟩ = .error (.sliceBounds (-1) 7) ∧
    router ⟨goStr "grpcFoo/", [], .CodeAtTest⟩
      = .error (.value (goStr "bad test prefix in name grpcFoo/")) := by
  decide

/-! ### The semaphore and the gate -/

theorem semaphore.fill_eq (k : Nat) (s : semaphore) (h : s.buf.length + k ≤ s.cap) :
    s.fill k = some ⟨s.cap, s.buf ++ List.replicate k ()⟩ := by
  induction k generalizing s with
  | zero => simp [semaphore.fill]
  | succ k ih =>
    have hlt : s.buf.length < s.cap := by omega
    simp only [semaphore.fill, semaphore.send, hlt, if_true, Option.some_bind]
    rw [ih]
    · simp [List.replicate_succ]
    · simp; omega

/-- The constructor returns: `newSemaphore(n)` is the full channel of capacity `n`. -/
theorem newSemaphore_eq (n : Nat) : newSemaphore n = some ⟨n, List.replicate n ()⟩ := by
  unfold newSemaphore
  rw [semaphore.fill_eq] <;> simp [semaphore.make]

theorem semaphore.drainLoop_eq (k : Nat) (c : Nat) (rest : List Unit) :
    semaphore.drainLoop k ⟨c, List.replicate k () ++ rest⟩ = some ⟨c, rest⟩ := by
  induction k with
  | zero => rfl
  | succ k ih => simpa [semaphore.drainLoop, semaphore.recv, List.replicate_succ] using ih

/-- Run alone on the full channel, `drain()` returns and leaves the channel empty. -/
theorem semaphore.drain_full (n : Nat) :
    semaphore.drain ⟨n, List.replicate n ()⟩ = some ⟨n, []⟩ := by
  have h := semaphore.drainLoop_eq n n []
  rw [List.append_nil] at h
  exact h

theorem Gate.conserved_init (N : Nat) (s : semaphore) (hs : newSemaphore N = some s) :
    (Gate.init s).Conserved N := by
  rw [newSemaphore_eq] at hs
  cases hs
  simp [Gate.Conserved, Gate.init]

theorem Gate.conserved_step (N : Nat) (g g1 : Gate) (op : Op) (hg : g.Conserved N)
    (h : g.step op = some g1) : g1.Conserved N := by
  obtain ⟨⟨cap, buf⟩, adm, i⟩ := g
  obtain ⟨hc, hsum⟩ := hg
  simp only at hc hsum
  cases op with
  | get =>
    cases buf with
    | nil => simp [Gate.step, semaphore.get, semaphore.recv] at h
    | cons x rest =>
      simp [Gate.step, semaphore.get, semaphore.recv] at h
      subst h
      simp [Gate.Conserved] at hsum ⊢
      exact ⟨hc, by omega⟩
  | put =>
    by_cases ha : 0 < adm
    · by_cases hl : buf.length < cap
      · simp [Gate.step, semaphore.put, semaphore.send, ha, hl] at h
        subst h
        simp [Gate.Conserved] at hsum ⊢
        exact ⟨hc, by omega⟩
      · simp [Gate.step, semaphore.put, semaphore.send, ha, hl] at h
    · simp [Gate.step, ha] at h
  | drainRecv =>
    by_cases hi : i < cap
    · cases buf with
      | nil => simp [Gate.step, semaphore.recv, hi] at h
      | cons x rest =>
        simp [Gate.step, semaphore.recv, hi] at h
        subst h
        simp [Gate.Conserved] at hsum ⊢
        exact ⟨hc, by omega⟩
    · simp [Gate.step, hi] at h

theorem Gate.conserved_exec (N : Nat) (ops : List Op) (g g1 : Gate) (hg : g.Conserved N)
    (h : g.exec ops = some g1) : g1.Conserved N := by
  induction ops generalizing g with
  | nil =>
    simp [Gate.exec] at h
    exact h ▸ hg
  | cons op ops ih =>
    cases hstep : g.step op with
    | none => simp [Gate.exec, hstep] at h
    | some g2 =>
      simp [Gate.exec, hstep] at h
      exact ih g2 (Gate.conserved_step N g g2 op hg hstep) h

/-- Steps other than those of `drain()` leave its loop counter alone. -/
theorem Gate.drainI_exec (ops : List Op) (g g1 : Gate)
    (hops : ∀ op ∈ ops, op = Op.get ∨ op = Op.put) (h : g.exec ops = some g1) :
    g1.drainI = g.drainI := by
  induction ops generalizing g with
  | nil =>
    simp [Gate.exec] at h
    exact h ▸ rfl
  | cons op ops ih =>
    cases hstep : g.step op with
    | none => simp [Gate.exec, hstep] at h
    | some g2 =>
      simp [Gate.exec, hstep] at h
      rw [ih g2 (fun o ho => hops o (List.mem_cons_of_mem _ ho)) h]
      rcases hops op (List.mem_cons_self _ _) with e | e
      · subst e
        simp only [Gate.step, Option.map_eq_some'] at hstep
        obtain ⟨s1, _, e1⟩ := hstep
        exact e1 ▸ rfl
      · subst e
        by_cases ha : 0 < g.admitted
        · simp only [Gate.step, ha, if_true, Option.map_eq_some'] at hstep
          obtain ⟨s1, _, e1⟩ := hstep
          exact e1 ▸ rfl
        · simp [Gate.step, ha] at hstep

/-- C1: on the gate returned by `newSemaphore(N)`, `N ≥ 1`, which starts with `N` tokens
and nothing admitted, after any finite sequence of `get()` (taken only when a token is
there) and `put()` (each matching an earlier `get()`), the tokens in the channel plus the
admitted units are `N`, so at most `N` units are admitted. -/
theorem gate_admitted_at_most_capacity (N : Nat) (hN : 1 ≤ N) (s : semaphore)
    (hs : newSemaphore N = some s) (ops : List Op)
    (hops : ∀ op ∈ ops, op = Op.get ∨ op = Op.put) (g : Gate)
    (hg : (Gate.init s).exec ops = some g) :
    (s.buf.length = N ∧ (Gate.init s).admitted = 0) ∧
    g.sem.buf.length + g.admitted = N ∧ g.admitted ≤ N := by
  have hinit := Gate.conserved_init N s hs
  have hc := Gate.conserved_exec N ops _ g hinit hg
  have hd := Gate.drainI_exec ops _ g hops hg
  have hN1 := hN
  simp only [Gate.Conserved, Gate.init] at hinit hc hd ⊢
  refine ⟨⟨by omega, trivial⟩, by omega, by omega⟩

theorem gate_admitted_at_most_capacity_witness :
    (1 ≤ 2 ∧ newSemaphore 2 = some ⟨2, [(), ()]⟩ ∧
      (Gate.init ⟨2, [(), ()]⟩).exec [.get, .get, .put] = some ⟨⟨2, [()]⟩, 1, 0⟩) ∧
    (⟨⟨2, [()]⟩, 1, 0⟩ : Gate).sem.buf.length + (⟨⟨2, [()]⟩, 1, 0⟩ : Gate).admitted = 2 :=
  ⟨by decide,
   (gate_admitted_at_most_capacity 2 (by decide) ⟨2, [(), ()]⟩ (by decide)
      [.get, .get, .put] (by decide) ⟨⟨2, [()]⟩, 1, 0⟩ (by decide)).2.1⟩

/-- C2: on the gate returned by `newSemaphore(N)`, `N ≥ 1`, under any interleaving of
`get()`, `put()` (each matching an earlier `get()`) and the receive steps of `drain()`,
`drain()` has returned only in states where no admitted unit is outstanding. -/
theorem drain_returns_only_when_idle (N : Nat) (hN : 1 ≤ N) (s : semaphore)
    (hs : newSemaphore N = some s) (ops : List Op) (g : Gate)
    (hg : (Gate.init s).exec ops = some g) (hret : g.drainReturned) :
    g.admitted = 0 := by
  have hc := Gate.conserved_exec N ops _ g (Gate.conserved_init N s hs) hg
  have hN1 := hN
  simp only [Gate.Conserved, Gate.drainReturned] at hc hret
  omega

theorem drain_returns_only_when_idle_witness :
    (1 ≤ 2 ∧ newSemaphore 2 = some ⟨2, [(), ()]⟩ ∧
      (Gate.init ⟨2, [(), ()]⟩).exec [.get, .drainRecv, .put, .drainRecv]
        = some ⟨⟨2, []⟩, 0, 2⟩ ∧
      Gate.drainReturned ⟨⟨2, []⟩, 0, 2⟩) ∧
    (⟨⟨2, []⟩, 0, 2⟩ : Gate).admitted = 0 :=
  ⟨by decide,
   drain_returns_only_when_idle 2 (by decide) ⟨2, [(), ()]⟩ (by decide)
      [.get, .drainRecv, .put, .drainRecv] ⟨⟨2, []⟩, 0, 2⟩ (by decide) (by decide)⟩

/-- C6 as stated fails: on `newSemaphore(1)` with every acquired slot released,
`drain()` returns leaving the channel empty, and the following `get()` blocks. -/
theorem get_after_drain_blocks_example :
    newSemaphore 1 = some ⟨1, [()]⟩ ∧
    (Gate.init ⟨1, [()]⟩).exec [.get, .put, .drainRecv] = some ⟨⟨1, []⟩, 0, 1⟩ ∧
    Gate.drainReturned ⟨⟨1, []⟩, 0, 1⟩ ∧
    semaphore.drain ⟨1, [()]⟩ = some ⟨1, []⟩ ∧
    semaphore.get ⟨1, []⟩ = none ∧
    (⟨⟨1, []⟩, 0, 1⟩ : Gate).step .get = none := by
  decide

/-- C6 (amended): on the gate returned by `newSemaphore(N)`, `N ≥ 1`, once `drain()` has
returned every acquired slot has been released and the channel is empty, because
`drain()` keeps the `N` tokens it received; a following `get()` finds no token and
blocks, and no other step of the gate is enabled either. -/
theorem get_after_drain_finds_no_token (N : Nat) (hN : 1 ≤ N) (s : semaphore)
    (hs : newSemaphore N = some s) (ops : List Op) (g : Gate)
    (hg : (Gate.init s).exec ops = some g) (hret : g.drainReturned) :
    g.admitted = 0 ∧ g.sem.buf = [] ∧ g.sem.get = none ∧ ∀ op, g.step op = none := by
  have hc := Gate.conserved_exec N ops _ g (Gate.conserved_init N s hs) hg
  have hN1 := hN
  simp only [Gate.Conserved, Gate.drainReturned] at hc hret
  have ha : g.admitted = 0 := by omega
  have hb : g.sem.buf = [] := List.length_eq_zero.1 (by omega)
  refine ⟨ha, hb, by simp [semaphore.get, semaphore.recv, hb], fun op => ?_⟩
  cases op with
  | get => simp [Gate.step, semaphore.get, semaphore.recv, hb]
  | put => simp [Gate.step, ha]
  | drainRecv => simp [Gate.step, hret]

theorem get_after_drain_finds_no_token_witness :
    (1 ≤ 2 ∧ newSemaphore 2 = some ⟨2, [(), ()]⟩ ∧
      (Gate.init ⟨2, [(), ()]⟩).exec [.get, .put, .drainRecv, .drainRecv]
        = some ⟨⟨2, []⟩, 0, 2⟩ ∧
      Gate.drainReturned ⟨⟨2, []⟩, 0, 2⟩) ∧
    semaphore.get ⟨2, []⟩ = none :=
  ⟨by decide,
   (get_after_drain_finds_no_token 2 (by decide) ⟨2, [(), ()]⟩ (by decide)
      [.get, .put, .drainRecv, .drainRecv] ⟨⟨2, []⟩, 0, 2⟩ (by decide) (by decide)).2.2.1⟩

end Rpc

/-! ### `HiveUnpackParams` -/

namespace Optimism

theorem lookup_setEntries (k v k1 : GoString) (l : List (GoString × GoString)) :
    lookupEntries k1 (setEntries k v l) = if k = k1 then some v else lookupEntries k1 l := by
  induction l with
  | nil => simp [setEntries, lookupEntries]
  | cons e rest ih =>
    obtain ⟨k2, v2⟩ := e
    by_cases h : k2 = k
    · subst h
      by_cases h1 : k2 = k1 <;> simp [setEntries, lookupEntries, h1]
    · by_cases h1 : k2 = k1
      · subst h1
        simp [setEntries, lookupEntries, h, Ne.symm h]
      · simp [setEntries, lookupEntries, h, h1, ih]

theorem lookup_isSome_iff (k : GoString) (l : List (GoString × GoString)) :
    (lookupEntries k l).isSome = true ↔ k ∈ l.map Prod.fst := by
  induction l with
  | nil => simp [lookupEntries]
  | cons e rest ih =>
    obtain ⟨k1, v1⟩ := e
    by_cases h : k1 = k
    · simp [lookupEntries, h]
    · have h1 : ¬ k = k1 := fun e => h e.symm
      simp [lookupEntries, h, h1, ih]

theorem lookup_of_mem (k v : GoString) (l : List (GoString × GoString))
    (hnd : (l.map Prod.fst).Nodup) (h : (k, v) ∈ l) : lookupEntries k l = some v := by
  induction l with
  | nil => simp at h
  | cons e rest ih =>
    obtain ⟨k1, v1⟩ := e
    rw [List.map_cons, List.nodup_cons] at hnd
    rcases List.mem_cons.1 h with h1 | h1
    · cases h1
      simp [lookupEntries]
    · have hne : k1 ≠ k := by
        intro e
        subst e
        exact hnd.1 (List.mem_map.2 ⟨_, h1, rfl⟩)
      simp [lookupEntries, hne, ih hnd.2 h1]

theorem setEntries_of_not_mem (k v : GoString) (l : List (GoString × GoString))
    (h : k ∉ l.map Prod.fst) : setEntries k v l = l ++ [(k, v)] := by
  induction l with
  | nil => rfl
  | cons e rest ih =>
    obtain ⟨k1, v1⟩ := e
    have h1 : k1 ≠ k := fun e => h (by simp [e])
    have h2 : k ∉ rest.map Prod.fst := fun e => h (by simp at e ⊢; exact Or.inr e)
    simp [setEntries, h1, ih h2]

theorem setEntries_of_lookup (k v : GoString) (l : List (GoString × GoString))
    (h : lookupEntries k l = some v) : setEntries k v l = l := by
  induction l with
  | nil => simp [lookupEntries] at h
  | cons e rest ih =>
    obtain ⟨k1, v1⟩ := e
    by_cases h1 : k1 = k
    · subst h1
      simp [lookupEntries] at h
      simp [setEntries, h]
    · simp [lookupEntries, h1] at h
      simp [setEntries, h1, ih h]

theorem paramsLoop_fst (l : List (GoString × GoString)) (u : HiveUnpackParams)
    (out : GoMap) : (HiveUnpackParams.paramsLoop l (u, out)).1 = u := by
  induction l generalizing out with
  | nil => rfl
  | cons e rest ih =>
    obtain ⟨k, v⟩ := e
    simp [HiveUnpackParams.paramsLoop, ih]

theorem paramsLoop_entries (l : List (GoString × GoString)) (u : HiveUnpackParams)
    (out : GoMap) (hnd : (l.map Prod.fst).Nodup)
    (hnew : ∀ k ∈ l.map Prod.fst, hiveUnpack ++ k ∉ out.entries.map Prod.fst) :
    (HiveUnpackParams.paramsLoop l (u, out)).2.entries = out.entries ++ l.map packEntry := by
  induction l generalizing out with
  | nil => simp [HiveUnpackParams.paramsLoop]
  | cons e rest ih =>
    obtain ⟨k, v⟩ := e
    rw [List.map_cons, List.nodup_cons] at hnd
    have hk : hiveUnpack ++ k ∉ out.entries.map Prod.fst :=
      hnew k (by simp)
    have hset : (out.set (hiveUnpack ++ k) v).entries = out.entries ++ [(hiveUnpack ++ k, v)] :=
      setEntries_of_not_mem _ _ _ hk
    simp only [HiveUnpackParams.paramsLoop]
    rw [ih _ hnd.2, hset]
    · simp [packEntry]
    · intro k1 hk1
      rw [hset, List.map_append, List.mem_append]
      rintro (h | h)
      · exact hnew k1 (List.mem_cons_of_mem _ hk1) h
      · simp at h
        exact hnd.1 (h ▸ hk1)

/-- The map returned by `Params` holds the packed entries of `u`, in iteration order. -/
theorem Params_entries (u : HiveUnpackParams) :
    rangeOf u.Params.2 = (rangeOf u).map packEntry := by
  have hnd : ((rangeOf u).map Prod.fst).Nodup := by
    cases u with
    | none => simp [rangeOf]
    | some m => exact m.nodup
  show (HiveUnpackParams.paramsLoop (rangeOf u) (u, GoMap.empty)).2.entries = _
  rw [paramsLoop_entries _ _ _ hnd (by simp [GoMap.empty])]
  simp [GoMap.empty]

theorem lookup_packed (k : GoString) (l : List (GoString × GoString)) :
    lookupEntries (hiveUnpack ++ k) (l.map packEntry) = lookupEntries k l := by
  induction l with
  | nil => rfl
  | cons e rest ih =>
    obtain ⟨k1, v1⟩ := e
    by_cases h : k1 = k
    · simp [lookupEntries, packEntry, h]
    · simp [lookupEntries, packEntry, h, ih]

theorem unpackKey_pack (k : GoString) : unpackKey (hiveUnpack ++ k) = k := by
  have h : hiveUnpack.isPrefixOf (hiveUnpack ++ k) = true := by
    rw [List.isPrefixOf_iff_prefix]
    exact List.prefix_append _ _
  simp [unpackKey, h]

/-- C9: `u.Params()` returns a new allocated map whose entries are exactly the pairs
`("HIVE_UNPACK_" + k, v)` for the pairs `(k, v)` of `u`: each key of `u` is there
prefixed, with its value; there is no other key; the two maps have the same number of
entries; unpacking each key of the result gives back the entries of `u`; and `u` is as
it was. -/
theorem Params_packs_every_entry (u : HiveUnpackParams) :
    u.Params.1 = u ∧ u.Params.2 ≠ none ∧
    (∀ k, get? u.Params.2 (hiveUnpack ++ k) = get? u k) ∧
    (∀ k1, k1 ∈ keys u.Params.2 ↔ ∃ k, k ∈ keys u ∧ k1 = hiveUnpack ++ k) ∧
    (∀ k1, (∀ k, k1 ≠ hiveUnpack ++ k) → get? u.Params.2 k1 = none) ∧
    len u.Params.2 = len u ∧
    (rangeOf u.Params.2).map (fun e => (unpackKey e.1, e.2)) = rangeOf u ∧
    unpackKey (goStr "HIVE_UNPACK_OP_NODE_HELLO_WORLD") = goStr "OP_NODE_HELLO_WORLD" := by
  have hkeys : ∀ k1, k1 ∈ keys u.Params.2 ↔ ∃ k, k ∈ keys u ∧ k1 = hiveUnpack ++ k := by
    intro k1
    simp only [keys, Params_entries, List.map_map, List.mem_map, Function.comp, packEntry]
    constructor
    · rintro ⟨e, he, rfl⟩
      exact ⟨e.1, ⟨e, he, rfl⟩, rfl⟩
    · rintro ⟨k, ⟨e, he, rfl⟩, rfl⟩
      exact ⟨e, he, rfl⟩
  refine ⟨paramsLoop_fst _ _ _, by simp [HiveUnpackParams.Params], ?_, hkeys, ?_, ?_, ?_,
    by decide⟩
  · intro k
    simp only [get?, Params_entries, lookup_packed]
  · intro k1 hk1
    have hnot : k1 ∉ keys u.Params.2 := by
      rw [hkeys]
      rintro ⟨k, _, rfl⟩
      exact hk1 k rfl
    cases hl : get? u.Params.2 k1 with
    | none => rfl
    | some v =>
      exact absurd ((lookup_isSome_iff k1 _).1 (by rw [get?] at hl; rw [hl]; rfl)) hnot
  · simp [len, Params_entries]
  · rw [Params_entries, List.map_map]
    have : ((fun e : GoString × GoString => (unpackKey e.1, e.2)) ∘ packEntry) = id := by
      funext e
      simp [packEntry, unpackKey_pack]
    rw [this, List.map_id]

theorem mergeLoop_some (l : List (GoString × GoString)) (m : GoMap)
    (other : HiveUnpackParams) :
    ∃ m1 : GoMap, HiveUnpackParams.mergeLoop l (some m, other) = .ok (some m1, other) ∧
      m1.entries = mergeEntries l m.entries := by
  induction l generalizing m with
  | nil => exact ⟨m, rfl, rfl⟩
  | cons e rest ih =>
    obtain ⟨k, v⟩ := e
    obtain ⟨m1, h1, h2⟩ := ih (m.set k v)
    exact ⟨m1, by simpa [HiveUnpackParams.mergeLoop, assign] using h1, by
      simpa [mergeEntries, GoMap.set] using h2⟩

theorem lookup_mergeEntries (l es : List (GoString × GoString))
    (hnd : (l.map Prod.fst).Nodup) (k : GoString) :
    lookupEntries k (mergeEntries l es)
      = if k ∈ l.map Prod.fst then lookupEntries k l else lookupEntries k es := by
  induction l generalizing es with
  | nil => simp [mergeEntries]
  | cons e rest ih =>
    obtain ⟨k1, v1⟩ := e
    rw [List.map_cons, List.nodup_cons] at hnd
    simp only [mergeEntries, ih _ hnd.2, lookup_setEntries, List.map_cons, List.mem_cons,
      lookupEntries]
    dsimp only at hnd ⊢
    by_cases h : k1 = k
    · subst h
      simp [hnd.1]
    · have h1 : ¬ k = k1 := fun e => h e.symm
      simp only [h, h1, if_false, false_or]

theorem mergeEntries_fixed (l es : List (GoString × GoString))
    (h : ∀ e ∈ l, lookupEntries e.1 es = some e.2) : mergeEntries l es = es := by
  induction l with
  | nil => rfl
  | cons e rest ih =>
    obtain ⟨k1, v1⟩ := e
    simp only [mergeEntries]
    rw [setEntries_of_lookup k1 v1 es (h (k1, v1) (List.mem_cons_self _ _))]
    exact ih fun e he => h e (List.mem_cons_of_mem _ he)

theorem nodup_rangeOf (m : Option GoMap) : ((rangeOf m).map Prod.fst).Nodup := by
  cases m with
  | none => simp [rangeOf]
  | some a => exact a.nodup

theorem GoMap.eq_of_entries (a b : GoMap) (h : a.entries = b.entries) : a = b := by
  cases a
  cases b
  cases h
  rfl

/-- C10: for a non-nil `u` and any `other`, `u.Merge(other)` returns without a panic and
leaves `other` as it was; the keys of `u` are then the keys it had together with those
of `other`; `u[k]` is `other[k]` for a key `k` of `other` and the former `u[k]`
otherwise; and a second `u.Merge(other)` changes nothing. -/
theorem Merge_last_write_wins (m : GoMap) (other : HiveUnpackParams) :
    ∃ m1 : GoMap,
      HiveUnpackParams.Merge (some m) other = .ok (some m1, other) ∧
      (∀ k, k ∈ keys (some m1) ↔ (k ∈ keys (some m) ∨ k ∈ keys other)) ∧
      (∀ k, get? (some m1) k = if k ∈ keys other then get? other k else get? (some m) k) ∧
      (∀ k, k ∈ keys other → ∃ v, get? other k = some v ∧ get? (some m1) k = some v) ∧
      HiveUnpackParams.Merge (some m1) other = .ok (some m1, other) := by
  obtain ⟨m1, hrun, hent⟩ := mergeLoop_some (rangeOf other) m other
  have hnd := nodup_rangeOf other
  have hget : ∀ k, get? (some m1) k
      = if k ∈ keys other then get? other k else get? (some m) k := by
    intro k
    simp only [get?, keys]
    rw [show rangeOf (some m1) = m1.entries from rfl, hent, lookup_mergeEntries _ _ hnd]
    rfl
  refine ⟨m1, hrun, ?_, hget, ?_, ?_⟩
  · intro k
    have h1 := lookup_isSome_iff k (rangeOf (some m1))
    have h2 := lookup_isSome_iff k (rangeOf (some m))
    have h3 := lookup_isSome_iff k (rangeOf other)
    have hk := hget k
    simp only [get?, keys] at hk h1 h2 h3 ⊢
    rw [← h1, hk]
    by_cases ho : k ∈ (rangeOf other).map Prod.fst
    · simp [ho, h3.2 ho]
    · simp [ho, h2]
  · intro k hk
    have h3 := (lookup_isSome_iff k (rangeOf other)).2 hk
    obtain ⟨v, hv⟩ := Option.isSome_iff_exists.1 h3
    exact ⟨v, hv, by rw [hget k, if_pos hk]; exact hv⟩
  · obtain ⟨m2, hrun2, hent2⟩ := mergeLoop_some (rangeOf other) m1 other
    have hfix : mergeEntries (rangeOf other) m1.entries = m1.entries := by
      apply mergeEntries_fixed
      intro e he
      have hk : e.1 ∈ keys other := List.mem_map.2 ⟨e, he, rfl⟩
      have := hget e.1
      rw [if_pos hk] at this
      simp only [get?] at this
      rw [show rangeOf (some m1) = m1.entries from rfl] at this
      rw [this]
      exact lookup_of_mem e.1 e.2 _ hnd he
    have : m2 = m1 := GoMap.eq_of_entries _ _ (hent2.trans hfix)
    rw [HiveUnpackParams.Merge, hrun2, this]

/-- On a nil `u`, `Merge` with a non-empty `other` panics on its first assignment, and
with an empty or nil `other` it does nothing. -/
theorem Merge_nil (other : HiveUnpackParams) :
    HiveUnpackParams.Merge none other
      = if rangeOf other = [] then .ok (none, other) else .error .nilMapAssign := by
  unfold HiveUnpackParams.Merge
  cases h : rangeOf other with
  | nil => rfl
  | cons e rest =>
    obtain ⟨k, v⟩ := e
    simp [HiveUnpackParams.mergeLoop, assign]

end Optimism

/-! ### Bootstrap -/

namespace Rpc

theorem runAllTests_eq_runCalls (ok : Call → Bool) :
    runAllTests ok = runCalls ok callSeq schedulerStart := rfl

theorem runCalls_fail (ok : Call → Bool) (pre : List Call) (c : Call) (post : List Call)
    (k : Boot) (hpre : ∀ x ∈ pre, ok x = true) (hc : ok c = false) :
    runCalls ok (pre ++ c :: post) k = ⟨pre ++ [c], none⟩ := by
  induction pre with
  | nil => simp [runCalls, call, hc]
  | cons a pre ih =>
    have ha : ok a = true := hpre a (List.mem_cons_self _ _)
    have := ih fun x hx => hpre x (List.mem_cons_of_mem _ hx)
    simp [runCalls, call, ha, this]

theorem runCalls_ok (ok : Call → Bool) (cs : List Call) (k : Boot)
    (h : ∀ x ∈ cs, ok x = true) : runCalls ok cs k = ⟨cs ++ k.trace, k.sched⟩ := by
  induction cs with
  | nil => rfl
  | cons a cs ih =>
    have ha : ok a = true := h a (List.mem_cons_self _ _)
    have := ih fun x hx => h x (List.mem_cons_of_mem _ hx)
    simp [runCalls, call, ha, this]

theorem runCalls_cases (ok : Call → Bool) (cs : List Call) :
    (∀ x ∈ cs, ok x = true) ∨
    ∃ pre c post, cs = pre ++ c :: post ∧ (∀ x ∈ pre, ok x = true) ∧ ok c = false := by
  induction cs with
  | nil => exact Or.inl (by simp)
  | cons a cs ih =>
    cases ha : ok a with
    | false => exact Or.inr ⟨[], a, cs, rfl, by simp, ha⟩
    | true =>
      rcases ih with h | ⟨pre, c, post, h1, h2, h3⟩
      · refine Or.inl fun x hx => ?_
        rcases List.mem_cons.1 hx with e | e
        · exact e ▸ ha
        · exact h x e
      · refine Or.inr ⟨a :: pre, c, post, by simp [h1], fun x hx => ?_, h3⟩
        rcases List.mem_cons.1 hx with e | e
        · exact e ▸ ha
        · exact h2 x e

theorem callSeq_stages : callSeq.filter (fun c => decide (c ∈ stageOrder)) = stageOrder := by
  decide

theorem runAllTests_trace_initial (ok : Call → Bool) : (runAllTests ok).trace <+: callSeq := by
  rw [runAllTests_eq_runCalls]
  rcases runCalls_cases ok callSeq with h | ⟨pre, c, post, h1, h2, h3⟩
  · rw [runCalls_ok ok _ _ h]
    simp [schedulerStart]
  · rw [h1, runCalls_fail ok pre c post _ h2 h3]
    exact ⟨post, by simp⟩

/-- C8: whatever calls return or end the test, the bootstrap stages that `runAllTests`
executes form a prefix of the documented order; when the stages before some stage return
and that stage fails, the stages executed are exactly those up to it, no later stage is
executed and the scheduler loop is not entered; the loop is entered (with
`newSemaphore(40)` and the catalog) only when every stage and the genesis marshalling
succeeded, and it is entered when every call returns. -/
theorem bootstrap_stages_in_order (ok : Call → Bool) :
    (runAllTests ok).stages <+: stageOrder ∧
    (∀ pre c post, stageOrder = pre ++ c :: post → ok .NewDevnet = true →
      (∀ x ∈ pre, ok x = true) → ok c = false →
        (runAllTests ok).stages = pre ++ [c] ∧
        (∀ x ∈ post, x ∉ (runAllTests ok).trace) ∧
        (runAllTests ok).sched = none) ∧
    ((runAllTests ok).sched ≠ none →
      (∀ c ∈ stageOrder, ok c = true) ∧ ok .jsonMarshal = true ∧
      (runAllTests ok).stages = stageOrder) ∧
    ((∀ c, ok c = true) →
      (runAllTests ok).sched = some (Sched.init ⟨40, List.replicate 40 ()⟩ tests)) := by
  refine ⟨?_, ?_, ?_, ?_⟩
  · have h := (runAllTests_trace_initial ok).filter (fun c => decide (c ∈ stageOrder))
    rw [callSeq_stages] at h
    exact h
  · intro pre c post hso hnew hpre hc
    have hseq : callSeq
        = (Call.NewDevnet :: pre) ++ c :: (post ++ [.GetOpL2Engine 0, .newVault, .jsonMarshal]) := by
      simp [callSeq, hso]
    have hpre1 : ∀ x ∈ Call.NewDevnet :: pre, ok x = true := by
      intro x hx
      rcases List.mem_cons.1 hx with e | e
      · exact e ▸ hnew
      · exact hpre x e
    have hrun : runAllTests ok = ⟨(Call.NewDevnet :: pre) ++ [c], none⟩ := by
      rw [runAllTests_eq_runCalls, hseq]
      exact runCalls_fail ok _ c _ _ hpre1 hc
    have hnd : (pre ++ c :: post).Nodup := hso ▸ (by decide : stageOrder.Nodup)
    have hmem : ∀ x ∈ pre ++ [c], x ∈ stageOrder := by
      intro x hx
      rw [hso]
      simp only [List.mem_append, List.mem_singleton, List.mem_cons] at hx ⊢
      tauto
    refine ⟨?_, ?_, by rw [hrun]⟩
    · have hfilter : (pre ++ [c]).filter (fun c => decide (c ∈ stageOrder)) = pre ++ [c] :=
        List.filter_eq_self.2 fun x hx => by simpa using hmem x hx
      have hnot : decide (Call.NewDevnet ∈ stageOrder) = false := by decide
      simp only [Boot.stages, hrun, List.cons_append, List.filter_cons, hnot]
      simpa using hfilter
    · intro x hx
      rw [hrun]
      have hx1 : x ∈ stageOrder := by rw [hso]; simp [hx]
      have hne : x ≠ Call.NewDevnet := by
        intro e
        rw [e] at hx1
        exact absurd hx1 (by decide)
      rw [List.nodup_append] at hnd
      obtain ⟨_, hnd2, hdisj⟩ := hnd
      have hxc : x ≠ c := by
        intro e
        rw [e] at hx
        exact (List.nodup_cons.1 hnd2).1 hx
      have hxpre : x ∉ pre := fun h => hdisj h (List.mem_cons_of_mem _ hx)
      simp [hne, hxc, hxpre]
  · intro hsched
    rcases runCalls_cases ok callSeq with h | ⟨pre, c, post, h1, h2, h3⟩
    · refine ⟨fun c hc => h c (by simp [callSeq, hc]), h _ (by simp [callSeq]), ?_⟩
      rw [Boot.stages, runAllTests_eq_runCalls, runCalls_ok ok _ _ h]
      simpa [schedulerStart] using callSeq_stages
    · rw [runAllTests_eq_runCalls, h1, runCalls_fail ok pre c post _ h2 h3] at hsched
      exact absurd rfl hsched
  · intro hall
    rw [runAllTests_eq_runCalls, runCalls_ok ok _ _ fun x _ => hall x]
    simp [schedulerStart, newSemaphore_eq, Sched.init]

/-- The readiness wait of the base-layer node times out: the five calls up to it are
made, nothing later is, and no scheduler state exists. -/
theorem bootstrap_stages_in_order_witness :
    (runAllTests fun c => decide (c ≠ .WaitUpEth1 0 (10 * timeSecond))).stages
      = [.InitContracts, .InitHardhatDeployConfig, .InitL1Hardhat, .AddEth1,
         .WaitUpEth1 0 (10 * timeSecond)] ∧
    (runAllTests fun c => decide (c ≠ .WaitUpEth1 0 (10 * timeSecond))).sched = none := by
  have h := (bootstrap_stages_in_order
    (fun c => decide (c ≠ .WaitUpEth1 0 (10 * timeSecond)))).2.1
    [.InitContracts, .InitHardhatDeployConfig, .InitL1Hardhat, .AddEth1]
    (.WaitUpEth1 0 (10 * timeSecond))
    [.DeployL1Hardhat, .InitL2Hardhat, .AddOpL2, .WaitUpOpL2Engine 0 (10 * timeSecond),
     .InitRollupHardhat, .AddOpNode 0 0, .AddOpBatcher 0 0 0]
    (by decide) (by decide) (by decide) (by decide)
  exact ⟨h.1, h.2.2⟩

end Rpc

/-! ### Scheduler -/

theorem perm_cons_eraseIdx {α : Type} (l : List α) (i : Nat) (x : α) (h : l[i]? = some x) :
    l.Perm (x :: l.eraseIdx i) := by
  induction l generalizing i with
  | nil => simp at h
  | cons a rest ih =>
    cases i with
    | zero =>
      simp at h
      subst h
      exact List.Perm.refl _
    | succ j =>
      simp at h
      exact ((ih j h).cons a).trans (List.Perm.swap x a _)

namespace Rpc

theorem Sched.inv_init (N : Nat) (catalog : List testSpec) (s : semaphore)
    (hs : newSemaphore N = some s) : (Sched.init s catalog).Inv N catalog := by
  rw [newSemaphore_eq] at hs
  cases hs
  constructor <;> simp [Sched.init, MainPc.holding, MainPc.pending, MainPc.drainedOk]

theorem Sched.inv_step (N : Nat) (catalog : List testSpec) (st st1 : Sched) (a : Act)
    (hinv : st.Inv N catalog) (h : st.step a = some st1) : st1.Inv N catalog := by
  obtain ⟨⟨cap, buf⟩, main, spawned, sleeping, gets, launched, reports, puts, drained⟩ := st
  obtain ⟨hcap, htok, hprog, hgets, hrep, hput, hdr⟩ := hinv
  simp only at hcap htok hprog hgets hrep hput hdr
  cases a with
  | main =>
    cases main with
    | loop rest =>
      cases rest with
      | nil =>
        simp [Sched.step] at h
        subst h
        constructor <;>
          simp_all [MainPc.holding, MainPc.pending, MainPc.drainedOk]
      | cons test rest =>
        cases buf with
        | nil => simp [Sched.step, semaphore.get, semaphore.recv] at h
        | cons x b =>
          simp [Sched.step, semaphore.get, semaphore.recv] at h
          subst h
          simp only [MainPc.holding, MainPc.pending, MainPc.drainedOk, List.length_cons]
            at htok hprog hgets hdr
          constructor <;>
            simp only [MainPc.holding, MainPc.pending, MainPc.drainedOk] <;>
            first | assumption | omega
    | acquired test rest =>
      simp [Sched.step] at h
      subst h
      simp only [MainPc.holding, MainPc.pending, MainPc.drainedOk] at htok hprog hgets hdr
      constructor <;>
        simp only [MainPc.holding, MainPc.pending, MainPc.drainedOk, List.length_append,
          List.length_singleton, List.map_append, List.map_cons, List.map_nil]
      · exact hcap
      · omega
      · simpa using hprog
      · omega
      · rw [← List.append_assoc]
        exact hrep.append_right _
      · rw [← List.append_assoc, ← List.append_assoc]
        rw [List.append_assoc puts] 
        exact hput.append_right _
      · exact hdr
    | drain i =>
      by_cases hi : i < cap
      · cases buf with
        | nil => simp [Sched.step, semaphore.recv, hi] at h
        | cons x b =>
          simp [Sched.step, semaphore.recv, hi] at h
          subst h
          simp only [MainPc.holding, MainPc.pending, MainPc.drainedOk, List.length_cons]
            at htok hprog hgets hdr
          constructor <;>
            simp only [MainPc.holding, MainPc.pending, MainPc.drainedOk] <;>
            first | assumption | omega
      · simp [Sched.step, hi] at h
        subst h
        simp only [MainPc.holding, MainPc.pending, MainPc.drainedOk] at htok hprog hgets hdr
        constructor <;>
          simp only [MainPc.holding, MainPc.pending, MainPc.drainedOk] <;>
          first | assumption | omega
    | returned => simp [Sched.step] at h
  | workerRun i =>
    cases hsp : spawned[i]? with
    | none => simp [Sched.step, hsp] at h
    | some test =>
      simp [Sched.step, hsp] at h
      subst h
      have hperm := perm_cons_eraseIdx spawned i test hsp
      have hlen := hperm.length_eq
      simp only [List.length_cons] at hlen
      constructor <;>
        simp only [List.length_append, List.length_singleton, List.append_assoc,
          List.singleton_append]
      · exact hcap
      · omega
      · exact hprog
      · exact hgets
      · exact (List.Perm.append_left reports (hperm.map reportOf).symm).trans hrep
      · refine (List.Perm.append_left puts (List.Perm.append_left sleeping ?_)).trans hput
        exact hperm.symm
      · exact hdr
  | workerPut i =>
    cases hsl : sleeping[i]? with
    | none => simp [Sched.step, hsl] at h
    | some test =>
      by_cases hl : buf.length < cap
      · simp [Sched.step, hsl, semaphore.put, semaphore.send, hl] at h
        subst h
        have hperm := perm_cons_eraseIdx sleeping i test hsl
        have hlen := hperm.length_eq
        simp only [List.length_cons] at hlen
        constructor <;>
          simp only [List.length_append, List.length_singleton, List.append_assoc,
            List.singleton_append]
        · exact hcap
        · omega
        · exact hprog
        · exact hgets
        · exact hrep
        · refine (List.Perm.append_left puts ?_).trans hput
          exact (hperm.symm.append_right spawned)
        · exact hdr
      · simp [Sched.step, hsl, semaphore.put, semaphore.send, hl] at h

theorem Sched.inv_exec (N : Nat) (catalog : List testSpec) (acts : List Act)
    (st st1 : Sched) (hinv : st.Inv N catalog) (h : st.exec acts = some st1) :
    st1.Inv N catalog := by
  induction acts generalizing st with
  | nil =>
    simp [Sched.exec] at h
    exact h ▸ hinv
  | cons a acts ih =>
    cases hstep : st.step a with
    | none => simp [Sched.exec, hstep] at h
    | some st2 =>
      simp [Sched.exec, hstep] at h
      exact ih st2 (Sched.inv_step N catalog st st2 a hinv hstep) h

theorem reportOf_name (t : testSpec) : (reportOf t).Name = t.Name ++ goStr " (ops-l2)" := by
  have h : goStr " (" ++ goStr "ops-l2" ++ goStr ")" = goStr " (ops-l2)" := by decide
  simp only [reportOf, sprintfParen, List.append_assoc] at h ⊢
  rw [h]

/-- C7: in any run of the scheduler loop on a catalog with a gate made by
`newSemaphore(N)`: the `go` statements executed so far launch a prefix of the catalog in
catalog order, one `s.get()` each; every `t.Run` call so far is the one of a launched
entry, under the name `<Name> (ops-l2)`, with that entry's description and with the
router bound to that entry's own name and check. When `runAllTests` returns, `drain()`
has done its `N` receives, every entry has been launched, its `t.Run` has been called
exactly once (the calls are a rearrangement of the catalog), every goroutine has run its
deferred `s.put()` exactly once, and none is left. -/
theorem scheduler_runs_each_entry_once (N : Nat) (hN : 1 ≤ N) (catalog : List testSpec)
    (s : semaphore) (hs : newSemaphore N = some s) (acts : List Act) (st : Sched)
    (hexec : (Sched.init s catalog).exec acts = some st) :
    (st.launched <+: catalog ∧ st.gets = st.launched.length + st.main.holding ∧
      (∀ r ∈ st.reports, ∃ t ∈ st.launched, r = reportOf t) ∧
      (∀ t, (reportOf t).Name = t.Name ++ goStr " (ops-l2)" ∧
        (reportOf t).Description = t.About ∧ (reportOf t).Run = router t)) ∧
    (st.main = .returned →
      st.drained = N ∧ st.gets = catalog.length ∧ st.launched = catalog ∧
      st.reports.Perm (catalog.map reportOf) ∧ st.reports.length = catalog.length ∧
      st.puts.Perm catalog ∧ st.puts.length = catalog.length ∧
      st.spawned = [] ∧ st.sleeping = []) := by
  have hinv := Sched.inv_exec N catalog acts _ st (Sched.inv_init N catalog s hs) hexec
  obtain ⟨hcap, htok, hprog, hgets, hrep, hput, hdr⟩ := hinv
  have hN1 := hN
  refine ⟨⟨⟨_, hprog⟩, hgets, ?_, fun t => ⟨reportOf_name t, rfl, rfl⟩⟩, ?_⟩
  · intro r hr
    have hmem : r ∈ st.launched.map reportOf :=
      hrep.subset (List.mem_append_left _ hr)
    obtain ⟨t, ht, e⟩ := List.mem_map.1 hmem
    exact ⟨t, ht, e.symm⟩
  · intro hret
    rw [hret] at htok hprog hgets hdr
    simp only [MainPc.holding, MainPc.pending, MainPc.drainedOk, List.append_nil]
      at htok hprog hgets hdr
    have hsp : st.spawned = [] := List.length_eq_zero.1 (by omega)
    have hsl : st.sleeping = [] := List.length_eq_zero.1 (by omega)
    rw [hsp, hsl] at hput
    rw [hsp] at hrep
    simp only [List.map_nil, List.append_nil] at hrep hput
    rw [hprog] at hrep hput hgets
    refine ⟨hdr, by omega, hprog, hrep, ?_, hput, hput.length_eq, hsp, hsl⟩
    simpa using hrep.length_eq

theorem scheduler_runs_each_entry_once_witness :
    (1 ≤ 2 ∧ newSemaphore 2 = some ⟨2, [(), ()]⟩ ∧
      (Sched.init ⟨2, [(), ()]⟩ twoTests).exec twoTestsSchedule = some twoTestsFinal ∧
      twoTestsFinal.main = .returned) ∧
    twoTestsFinal.launched = twoTests ∧
    twoTestsFinal.reports.Perm (twoTests.map reportOf) ∧
    twoTestsFinal.sleeping = [] :=
  have h := (scheduler_runs_each_entry_once 2 (by decide) twoTests ⟨2, [(), ()]⟩ (by decide)
    twoTestsSchedule twoTestsFinal (by decide)).2 (by decide)
  ⟨by decide, h.2.2.1, h.2.2.2.1, h.2.2.2.2.2.2.2.2⟩

theorem Sched.exec_append (st : Sched) (a b : List Act) :
    st.exec (a ++ b) = (st.exec a).bind fun st1 => st1.exec b := by
  induction a generalizing st with
  | nil => simp [Sched.exec]
  | cons x a ih =>
    cases h : st.step x with
    | none => simp [Sched.exec, h]
    | some st2 => simp [Sched.exec, h, ih]

theorem Sched.exec_cons (st : Sched) (a : Act) (acts : List Act) :
    st.exec (a :: acts) = (st.step a).bind fun st1 => st1.exec acts := rfl

theorem Sched.exec_seqLoop (n : Nat) (ts : List testSpec) (g : Nat) (l : List testSpec)
    (r : List hivesimTestSpec) (p : List testSpec) :
    ∃ g1 l1 r1 p1,
      (⟨⟨n + 1, List.replicate (n + 1) ()⟩, .loop ts, [], [], g, l, r, p, 0⟩ : Sched).exec
          (seqLoopSchedule ts)
        = some ⟨⟨n + 1, List.replicate (n + 1) ()⟩, .loop [], [], [], g1, l1, r1, p1, 0⟩ := by
  induction ts generalizing g l r p with
  | nil => exact ⟨g, l, r, p, rfl⟩
  | cons t ts ih =>
    obtain ⟨g1, l1, r1, p1, h⟩ := ih (g + 1) (l ++ [t]) (r ++ [reportOf t]) (p ++ [t])
    refine ⟨g1, l1, r1, p1, ?_⟩
    have hrep : List.replicate n () ++ [()] = List.replicate (n + 1) () :=
      (List.replicate_succ' n ()).symm
    simp only [seqLoopSchedule, Sched.exec, Sched.step, semaphore.get, semaphore.recv,
      semaphore.put, semaphore.send, List.replicate_succ, Option.map_some', Option.some_bind,
      List.nil_append, List.getElem?_cons_zero, List.eraseIdx_cons_zero, List.length_replicate,
      Nat.lt_succ_self, if_true]
    rw [hrep]
    exact h

theorem Sched.exec_drain (N k i : Nat) (hik : i + k = N) (g : Nat) (l : List testSpec)
    (r : List hivesimTestSpec) (p : List testSpec) :
    (⟨⟨N, List.replicate k ()⟩, .drain i, [], [], g, l, r, p, i⟩ : Sched).exec
        (List.replicate k .main)
      = some ⟨⟨N, []⟩, .drain N, [], [], g, l, r, p, N⟩ := by
  induction k generalizing i with
  | zero =>
    have : i = N := by omega
    subst this
    rfl
  | succ k ih =>
    have hi : i < N := by omega
    simp only [List.replicate_succ, Sched.exec, Sched.step, semaphore.recv, hi, if_true,
      Option.map_some', Option.some_bind]
    exact ih (i + 1) (by omega)

/-- The scheduler can finish: on every catalog and every gate of capacity `N ≥ 1` the
sequential schedule takes `runAllTests` from the head of the loop to its return. -/
theorem Sched.seqSchedule_returns (N : Nat) (hN : 1 ≤ N) (catalog : List testSpec) :
    ∃ st, (Sched.init ⟨N, List.replicate N ()⟩ catalog).exec (seqSchedule N catalog) = some st
      ∧ st.main = .returned := by
  obtain ⟨n, rfl⟩ : ∃ n, N = n + 1 := ⟨N - 1, by omega⟩
  obtain ⟨g1, l1, r1, p1, h⟩ := Sched.exec_seqLoop n catalog 0 [] [] []
  have hd := Sched.exec_drain (n + 1) (n + 1) 0 (by omega) g1 l1 r1 p1
  refine ⟨⟨⟨n + 1, []⟩, .returned, [], [], g1, l1, r1, p1, n + 1⟩, ?_, rfl⟩
  unfold seqSchedule Sched.init
  rw [Sched.exec_append, h, Option.some_bind, Sched.exec_cons]
  simp only [Sched.step, Option.some_bind]
  rw [Sched.exec_append, hd]
  simp [Sched.exec, Sched.step]

end Rpc
